import Mathlib

/-!
Shallow embedding of `config_manager.py` (ydl_api_ng).

Raw configuration sections (as read by `configparser`) are modelled as ordered
association lists from option name to raw text; typed sections
(`SectionConfig`) are ordered association lists from key to typed value.
Python dictionaries keep the original insertion position when a key is
overwritten, which `updateAssoc` reproduces.  Fallible code (fuelled
recursion in the expansion engine, `int(...)` coercion) is modelled with
`Except CfgError`.
-/

/-- Typed parameter values produced by `ConfigManager.__get_parsed_parameter_value`.
`pnone` is Python's `None` (also returned by `SectionConfig.get` for a missing
key without a static default).  Floating point and JSON values are kept
abstract as their raw source text (`pfloat`, `pobj`): no verified claim
depends on their semantics. -/
inductive PValue where
  | pstr (s : String)
  | pint (n : Int)
  | pfloat (raw : String)
  | pbool (b : Bool)
  | parr (l : List String)
  | pobj (raw : String)
  | pnone
  deriving DecidableEq

deriving instance DecidableEq for Except

/-- Helper for `pySplit`: split a character list at each separator. -/
def pySplitAux (sep : Char) : List Char → List Char → List String
  | [], acc => [String.mk acc.reverse]
  | c :: rest, acc =>
    if c = sep then String.mk acc.reverse :: pySplitAux sep rest []
    else pySplitAux sep rest (c :: acc)

/-- Python `str.split(sep)` for a one-character separator (the source only
splits on `","` and `":"`). -/
def pySplit (sep : Char) (s : String) : List String :=
  pySplitAux sep s.data []

/-- Python `str.upper()` (structural version of `String.toUpper`). -/
def upperString (s : String) : String :=
  String.mk (s.data.map Char.toUpper)

/-- Helper for `pyStartsWith`. -/
def isPrefixChars : List Char → List Char → Bool
  | [], _ => true
  | _, [] => false
  | a :: as, b :: bs => a == b && isPrefixChars as bs

/-- Python `str.startswith(pre)`. -/
def pyStartsWith (s pre : String) : Bool :=
  isPrefixChars pre.data s.data

/-- Helper for `lstripUnderscore`. -/
def dropLeadingUnderscores : List Char → List Char
  | [] => []
  | c :: rest => if c = '_' then dropLeadingUnderscores rest else c :: rest

/-- Python `key.lstrip("_")`: remove every leading underscore. -/
def lstripUnderscore (s : String) : String :=
  String.mk (dropLeadingUnderscores s.data)

/-- Lookup of the first binding of a key in an ordered association list. -/
def lookupKey (k : String) : List (String × α) → Option α
  | [] => none
  | (k', v) :: rest => if k' = k then some v else lookupKey k rest

/-- Whether an association list binds a key. -/
def hasKey (k : String) (es : List (String × α)) : Bool :=
  (lookupKey k es).isSome

/-- Python dictionary assignment `d[k] = v`: an existing binding is replaced
in place (keeping its position), and a new key is appended at the end. -/
def updateAssoc (es : List (String × α)) (k : String) (v : α) : List (String × α) :=
  if hasKey k es then es.map (fun kv => if kv.1 = k then (k, v) else kv)
  else es ++ [(k, v)]

/-- The class-level `SectionConfig.__defaults` dictionary, with its raw Python
values carried over to `PValue`. -/
def sectionDefaults : List (String × PValue) :=
  [("_api_route_download", .pstr "/download"),
   ("_api_route_extract_info", .pstr "/extract_info"),
   ("_api_route_info", .pstr "/info"),
   ("_api_route_active_downloads", .pstr "/active_downloads"),
   ("_enable_users_management", .pbool false),
   ("_log_level", .pint 20),
   ("_log_backups", .pint 7),
   ("_listen_port", .pint 80),
   ("_listen_ip", .pstr "0.0.0.0")]

/-- A typed section object: the instance `__dict__` of a Python
`SectionConfig`, an insertion-ordered map from key to typed value. -/
structure SectionConfig where
  entries : List (String × PValue)
  deriving DecidableEq

/-- `SectionConfig.append`: dictionary assignment, overwriting an existing key. -/
def SectionConfig.append (s : SectionConfig) (k : String) (v : PValue) : SectionConfig :=
  ⟨updateAssoc s.entries k v⟩

/-- `SectionConfig.get`: the instance attribute if present, else the static
class default (`__defaults.get(key)`), else Python `None`. -/
def SectionConfig.get (s : SectionConfig) (k : String) : PValue :=
  match lookupKey k s.entries with
  | some v => v
  | none =>
    match lookupKey k sectionDefaults with
    | some v => v
    | none => .pnone

/-- `SectionConfig.delete`: `__delattr__`, silently ignoring a missing key. -/
def SectionConfig.delete (s : SectionConfig) (k : String) : SectionConfig :=
  ⟨s.entries.filter (fun kv => kv.1 != k)⟩

/-- A typed namespace container: the instance `__dict__` of a Python
`GlobalConfig`, mapping (upper-cased) local section name to typed section. -/
abbrev GlobalConfig := List (String × SectionConfig)

/-- `GlobalConfig.get`: lookup by upper-cased name; `None` when absent. -/
def globalGet (g : GlobalConfig) (key : String) : Option SectionConfig :=
  lookupKey (upperString key) g

/-- Python `==` on stored values, including the numeric equality of booleans
and integers (`True == 1`).  Python's numeric equality between floats and
integers is not reproduced by the abstract text model of `pfloat`; no section
value exercised by the claims is a float. -/
def pvalEq : PValue → PValue → Bool
  | .pstr a, .pstr b => a == b
  | .pint a, .pint b => a == b
  | .pbool a, .pbool b => a == b
  | .pint a, .pbool b => a == (if b then (1 : Int) else 0)
  | .pbool a, .pint b => (if a then (1 : Int) else 0) == b
  | .pfloat a, .pfloat b => a == b
  | .parr a, .parr b => a == b
  | .pobj a, .pobj b => a == b
  | .pnone, .pnone => true
  | _, _ => false

/-- Python truthiness (`if manage_user:`).  The `pfloat`/`pobj` cases are
approximations on the abstract text representation; they are not reached by
any claim (the only key tested for truthiness is `_enable_users_management`,
a boolean or a string). -/
def truthy : PValue → Bool
  | .pnone => false
  | .pbool b => b
  | .pint n => n != 0
  | .pstr s => s != ""
  | .parr l => !l.isEmpty
  | .pfloat raw => raw != "0.0" && raw != "0" && raw != "-0.0"
  | .pobj _ => true

/-- `GlobalConfig.search_section_by_value`: first section whose value for
`key` is a list containing `value`, or equals `value` under Python `==`. -/
def searchSectionByValue (g : GlobalConfig) (key : String) (value : PValue) :
    Option SectionConfig :=
  match g with
  | [] => none
  | (_, s) :: rest =>
    match SectionConfig.get s key with
    | .parr l =>
      if (match value with | .pstr x => l.contains x | _ => false) then some s
      else searchSectionByValue rest key value
    | rv => if pvalEq rv value then some s else searchSectionByValue rest key value

/-- Failure modes of the embedded `ConfigManager`: fuel exhaustion of the
(unbounded, in the source) expansion recursion, a reference to a missing
section (`KeyError` in the source), and a non-numeric `int(...)` coercion
(`ValueError` in the source). -/
inductive CfgError where
  | outOfFuel
  | missingRef (name : String)
  | badInt (key value : String)
  deriving DecidableEq

/-- The `__keys_metadata` buckets loaded by `__load_metadata` from
`params_metadata.ini` (`_int`, `_float`, `_bool`, `_array`, `_object`,
`_hidden`). -/
structure KeysMetadata where
  intKeys : List String
  floatKeys : List String
  boolKeys : List String
  arrayKeys : List String
  objectKeys : List String
  hiddenKeys : List String

/-- A metadata file with every bucket empty. -/
def emptyMeta : KeysMetadata := ⟨[], [], [], [], [], []⟩

/-- `ConfigManager.__get_parsed_parameter_value`: bucket-priority coercion of
one raw text value.  The float and object branches keep the raw text
abstract (see `PValue`); the int branch fails like Python's `int(...)` on
non-numeric text. -/
def getParsedParameterValue (meta : KeysMetadata) (key value : String) :
    Except CfgError PValue :=
  if key ∈ meta.intKeys then
    match value.toInt? with
    | some n => .ok (.pint n)
    | none => .error (.badInt key value)
  else if key ∈ meta.floatKeys then .ok (.pfloat value)
  else if key ∈ meta.boolKeys then .ok (.pbool (value == "true"))
  else if key ∈ meta.arrayKeys then
    if value != "" then .ok (.parr (pySplit ',' value)) else .ok .pnone
  else if key ∈ meta.objectKeys then .ok (.pobj value)
  else .ok (.pstr value)

/-- A raw section: the ordered option/value pairs of one `configparser`
section (option names are lower-cased by `configparser` on read). -/
abbrev RawSection := List (String × String)

/-- The raw store `self.__config`: ordered list of `(section name, data)`. -/
abbrev RawStore := List (String × RawSection)

/-- The reserved reference keys (`expendable_fields` in `__expand_section`). -/
def expendableFields : List String :=
  ["_preset", "_template", "_location", "_auth", "_site", "_user"]

/-- Name of the section a reference key points to:
`f-string {key.lstrip("_")}:{value}`. -/
def refTargetName (key value : String) : String :=
  lstripUnderscore key ++ ":" ++ value

/-- `configparser.remove_option`: drop the binding of one option. -/
def removeOption (k : String) (es : RawSection) : RawSection :=
  es.filter (fun kv => kv.1 != k)

/-- `ConfigManager.__merge_configs`: copy each option of `src` into `dest`
only when `dest` does not already bind it (new options land at the end,
matching `configparser` insertion order). -/
def mergeConfigs (src dest : RawSection) : RawSection :=
  match src with
  | [] => dest
  | (k, v) :: rest =>
    mergeConfigs rest (if hasKey k dest then dest else dest ++ [(k, v)])

/-- One pass of the loop in `ConfigManager.__expand_section`: the `for`
loop iterates over a snapshot of the section's option pairs taken at loop
entry (`configparser` yields a fresh key list); each reference key found is
removed from the working section and its target section of the raw store is
merged in.  Returns the updated section and the `merged` flag. -/
def expandPassAux (raw : RawStore) :
    List (String × String) → RawSection → Bool → Except CfgError (RawSection × Bool)
  | [], sec, merged => .ok (sec, merged)
  | (k, v) :: rest, sec, merged =>
    if k ∈ expendableFields then
      match lookupKey (refTargetName k v) raw with
      | none => .error (.missingRef (refTargetName k v))
      | some target =>
        expandPassAux raw rest (mergeConfigs target (removeOption k sec)) true
    else expandPassAux raw rest sec merged

/-- `ConfigManager.__expand_section`: run passes until one finds no
reference key; the source recurses with no bound, which the fuel makes
explicit (`CfgError.outOfFuel` marks a recursion the source never exits). -/
def expandSection (raw : RawStore) : Nat → RawSection → Except CfgError RawSection
  | 0, _ => .error .outOfFuel
  | fuel + 1, sec =>
    match expandPassAux raw sec sec false with
    | .error e => .error e
    | .ok (sec', false) => .ok sec'
    | .ok (sec', true) => expandSection raw fuel sec'

/-- Python `section_name.split(":")[0]`. -/
def namespaceOf (sectionName : String) : String :=
  (pySplit ':' sectionName).headD ""

/-- `ConfigManager.__expand_config`: clone the raw section, expand it, and
if a `<namespace>:DEFAULT` section exists merge it in and expand once more. -/
def expandConfig (raw : RawStore) (fuel : Nat) (sectionName : String) :
    Except CfgError RawSection :=
  match lookupKey sectionName raw with
  | none => .error (.missingRef sectionName)
  | some data =>
    match expandSection raw fuel data with
    | .error e => .error e
    | .ok s1 =>
      match lookupKey (namespaceOf sectionName ++ ":DEFAULT") raw with
      | none => .ok s1
      | some d => expandSection raw fuel (mergeConfigs d s1)

/-- The per-namespace stores filled by `ConfigManager.__dispatch_configs`
(`__presets_config`, `__user_config`, `__site_config`, `__auth_config`,
`__app_config`). -/
structure Dispatched where
  presets : List (String × RawSection)
  users : List (String × RawSection)
  sites : List (String × RawSection)
  auths : List (String × RawSection)
  appStore : List (String × RawSection)
  deriving DecidableEq

/-- Worker for `dispatchConfigs`, iterating over the raw section list. -/
def dispatchAux (raw : RawStore) (fuel : Nat) :
    List (String × RawSection) → Dispatched → Except CfgError Dispatched
  | [], acc => .ok acc
  | (name, data) :: rest, acc =>
    if pyStartsWith name "preset:" then
      match expandConfig raw fuel name with
      | .error e => .error e
      | .ok ex =>
        dispatchAux raw fuel rest
          ⟨updateAssoc acc.presets name ex, acc.users, acc.sites, acc.auths, acc.appStore⟩
    else if pyStartsWith name "user:" then
      match expandConfig raw fuel name with
      | .error e => .error e
      | .ok ex =>
        dispatchAux raw fuel rest
          ⟨acc.presets, updateAssoc acc.users name ex, acc.sites, acc.auths, acc.appStore⟩
    else if pyStartsWith name "site:" then
      match expandConfig raw fuel name with
      | .error e => .error e
      | .ok ex =>
        dispatchAux raw fuel rest
          ⟨acc.presets, acc.users, updateAssoc acc.sites name ex, acc.auths, acc.appStore⟩
    else if pyStartsWith name "auth:" then
      match expandConfig raw fuel name with
      | .error e => .error e
      | .ok ex =>
        dispatchAux raw fuel rest
          ⟨acc.presets, acc.users, acc.sites, updateAssoc acc.auths name ex, acc.appStore⟩
    else if name = "app" then
      dispatchAux raw fuel rest
        ⟨acc.presets, acc.users, acc.sites, acc.auths, updateAssoc acc.appStore name data⟩
    else dispatchAux raw fuel rest acc

/-- `ConfigManager.__dispatch_configs`: route every raw section by its name
prefix, expanding all but the verbatim-copied `app` section. -/
def dispatchConfigs (raw : RawStore) (fuel : Nat) : Except CfgError Dispatched :=
  dispatchAux raw fuel raw ⟨[], [], [], [], []⟩

/-- Python `section.split(':')[-1].upper()` in `__populate_config_object`. -/
def localNameOf (sectionName : String) : String :=
  upperString ((pySplit ':' sectionName).getLastD "")

/-- Coerce and insert the option pairs of one expanded section into a typed
section object (the `add_item` loop of `__populate_config_object`). -/
def populateSectionAux (meta : KeysMetadata) :
    List (String × String) → SectionConfig → Except CfgError SectionConfig
  | [], acc => .ok acc
  | (k, v) :: rest, acc =>
    match getParsedParameterValue meta k v with
    | .error e => .error e
    | .ok pv => populateSectionAux meta rest (SectionConfig.append acc k pv)

/-- Worker for `populateConfigObject`: `add_section` registers the section
under its local name carrying the implicit `_name` key, then every option is
coerced and inserted. -/
def populateAux (meta : KeysMetadata) :
    List (String × RawSection) → GlobalConfig → Except CfgError GlobalConfig
  | [], acc => .ok acc
  | (name, data) :: rest, acc =>
    match populateSectionAux meta data ⟨[("_name", .pstr (localNameOf name))]⟩ with
    | .error e => .error e
    | .ok s => populateAux meta rest (updateAssoc acc (localNameOf name) s)

/-- `ConfigManager.__populate_config_object`: build the typed namespace
container from one dispatched store. -/
def populateConfigObject (meta : KeysMetadata) (store : List (String × RawSection)) :
    Except CfgError GlobalConfig :=
  populateAux meta store []

/-- The typed config objects a `ConfigManager` exposes after construction
(`__app_config_object` and `__user_config_object`; the other namespaces
play no role in the authorization claims). -/
structure ConfigObjects where
  appObj : GlobalConfig
  userObj : GlobalConfig
  deriving DecidableEq

/-- `ConfigManager.get_app_params`: `self.__app_config_object.get('APP')`. -/
def getAppParams (c : ConfigObjects) : Option SectionConfig :=
  globalGet c.appObj "APP"

/-- `ConfigManager.get_user_param_by_token`. -/
def getUserParamByToken (c : ConfigObjects) (token : PValue) : Option SectionConfig :=
  searchSectionByValue c.userObj "_token" token

/-- Result of `is_user_permitted_by_token`: the source returns Python `None`
(`notApplicable`, user management disabled), `False` (`denied`) or the
matching user's typed section (`permitted`). -/
inductive PermitResult where
  | notApplicable
  | denied
  | permitted (user : SectionConfig)
  deriving DecidableEq

/-- `ConfigManager.is_user_permitted_by_token`.  The outer `Option` is `none`
exactly when `get_app_params()` is `None` and the source would raise
`AttributeError` on `.get`. -/
def isUserPermittedByToken (c : ConfigObjects) (userToken : PValue) :
    Option PermitResult :=
  match getAppParams c with
  | none => none
  | some app =>
    let manageUser := SectionConfig.get app "_enable_users_management"
    let user := getUserParamByToken c userToken
    some (if truthy manageUser then
            match user with
            | none => .denied
            | some u => .permitted u
          else .notApplicable)

/-- `ConfigManager.merge_configs_object`: copy every key of the user section
except `_name` into the preset section, overwriting; the source mutates and
returns `preset_object` itself (in-place mutation is value passing here). -/
def mergeConfigsObject (userObject : Option SectionConfig) (presetObject : SectionConfig) :
    SectionConfig :=
  match userObject with
  | none => presetObject
  | some u =>
    u.entries.foldl
      (fun acc kv =>
        if kv.1 = "_name" then acc else SectionConfig.append acc kv.1 (SectionConfig.get u kv.1))
      presetObject

/-- `ConfigManager.sanitize_config_object_section`: delete every
hidden-classified key.  The `mutate` flag only selects between returning the
argument object or a deep copy in the source; under value semantics both
produce the same section value. -/
def sanitizeConfigObjectSection (meta : KeysMetadata) (configSectionObject : SectionConfig)
    (mutate : Bool) : SectionConfig :=
  let cloneObject := if mutate then configSectionObject else configSectionObject
  meta.hiddenKeys.foldl SectionConfig.delete cloneObject

/-- `ConfigManager.sanitize_config_object`: deep-copy the container and
sanitize every section in place.  Section names stored by `add_section` are
already upper-cased, so `clone_object.get(item)` is the section registered
under `item` itself. -/
def sanitizeConfigObject (meta : KeysMetadata) (configObject : GlobalConfig) : GlobalConfig :=
  configObject.map (fun p => (p.1, sanitizeConfigObjectSection meta p.2 true))

example : getParsedParameterValue ⟨[], [], ["f"], [], [], []⟩ "f" "True" = .ok (.pbool false) := by
  decide

example : getParsedParameterValue ⟨[], [], [], ["a"], [], []⟩ "a" "a,b,c" =
    .ok (.parr ["a", "b", "c"]) := by decide

example : pySplit ',' "a,b,c" = ["a", "b", "c"] := by decide

example : pyStartsWith "preset:DEFAULT" "preset:" = true := by decide

example : upperString "preset" = "PRESET" := by decide

example : lstripUnderscore "_preset" = "preset" := by decide

/-! ### Association-list lemmas -/

theorem lookupKey_nil {α : Type} (k : String) : lookupKey k ([] : List (String × α)) = none := rfl

theorem lookupKey_cons {α : Type} (k k' : String) (v : α) (es : List (String × α)) :
    lookupKey k ((k', v) :: es) = if k' = k then some v else lookupKey k es := rfl

theorem lookupKey_append_some {α : Type} {k : String} {es l : List (String × α)} {v : α}
    (h : lookupKey k es = some v) : lookupKey k (es ++ l) = some v := by
  induction es with
  | nil => simp [lookupKey] at h
  | cons kv rest ih =>
    obtain ⟨k', v'⟩ := kv
    rw [List.cons_append, lookupKey_cons] at *
    split at h
    · rw [if_pos ‹_›]; exact h
    · rw [if_neg ‹_›]; exact ih h

theorem lookupKey_eq_none_of_forall {α : Type} {k : String} {es : List (String × α)}
    (h : ∀ p ∈ es, p.1 ≠ k) : lookupKey k es = none := by
  induction es with
  | nil => rfl
  | cons kv rest ih =>
    rw [lookupKey_cons]
    rw [if_neg (h kv (List.mem_cons_self kv rest))]
    exact ih (fun p hp => h p (List.mem_cons_of_mem kv hp))

theorem forall_of_lookupKey_eq_none {α : Type} {k : String} {es : List (String × α)}
    (h : lookupKey k es = none) : ∀ p ∈ es, p.1 ≠ k := by
  induction es with
  | nil => intro p hp; cases hp
  | cons kv rest ih =>
    rw [lookupKey_cons] at h
    intro p hp
    rcases List.mem_cons.mp hp with rfl | hp'
    · intro hk; rw [if_pos hk] at h; cases h
    · split at h
      · cases h
      · exact ih h p hp'

theorem lookupKey_append_none {α : Type} {k : String} {es : List (String × α)}
    (h : lookupKey k es = none) (l : List (String × α)) :
    lookupKey k (es ++ l) = lookupKey k l := by
  induction es with
  | nil => rfl
  | cons kv rest ih =>
    obtain ⟨k', v'⟩ := kv
    rw [lookupKey_cons] at h
    rw [List.cons_append, lookupKey_cons]
    split at h
    · cases h
    · rw [if_neg ‹_›]; exact ih h

theorem lookupKey_map_replace_self {α : Type} {k : String} {es : List (String × α)} {v : α}
    (h : hasKey k es = true) :
    lookupKey k (es.map (fun kv => if kv.1 = k then (k, v) else kv)) = some v := by
  induction es with
  | nil => simp [hasKey, lookupKey] at h
  | cons kv rest ih =>
    obtain ⟨k', v'⟩ := kv
    by_cases hkk : k' = k
    · subst hkk
      simp [lookupKey_cons]
    · simp only [List.map_cons]
      rw [if_neg hkk, lookupKey_cons, if_neg hkk]
      apply ih
      simpa [hasKey, lookupKey_cons, if_neg hkk] using h

theorem lookupKey_updateAssoc_self {α : Type} (es : List (String × α)) (k : String) (v : α) :
    lookupKey k (updateAssoc es k v) = some v := by
  unfold updateAssoc
  split
  · exact lookupKey_map_replace_self ‹_›
  · rename_i hk
    have hnone : lookupKey k es = none := by
      cases hl : lookupKey k es with
      | none => rfl
      | some w => exact absurd (by simp [hasKey, hl]) hk
    rw [lookupKey_append_none hnone, lookupKey_cons, if_pos rfl]

theorem lookupKey_map_replace_other {α : Type} {k k' : String} (hne : k' ≠ k)
    (es : List (String × α)) (v : α) :
    lookupKey k (es.map (fun kv => if kv.1 = k' then (k', v) else kv)) = lookupKey k es := by
  induction es with
  | nil => rfl
  | cons kv rest ih =>
    obtain ⟨k0, v0⟩ := kv
    by_cases hk0 : k0 = k'
    · subst hk0
      simp only [List.map_cons, ite_true]
      rw [lookupKey_cons, lookupKey_cons, if_neg hne, if_neg hne]
      exact ih
    · simp only [List.map_cons]
      rw [if_neg hk0, lookupKey_cons, lookupKey_cons]
      split
      · rfl
      · exact ih

theorem lookupKey_updateAssoc_other {α : Type} {k k' : String} (hne : k' ≠ k)
    (es : List (String × α)) (v : α) :
    lookupKey k (updateAssoc es k' v) = lookupKey k es := by
  unfold updateAssoc
  split
  · exact lookupKey_map_replace_other hne es v
  · by_cases hlk : lookupKey k es = none
    · rw [lookupKey_append_none hlk, hlk, lookupKey_cons, if_neg hne, lookupKey_nil]
    · obtain ⟨w, hw⟩ := Option.ne_none_iff_exists'.mp hlk
      rw [lookupKey_append_some hw, hw]

/-! ### Expansion-engine lemmas -/

theorem hasKey_of_lookupKey_some {α : Type} {k : String} {es : List (String × α)} {v : α}
    (h : lookupKey k es = some v) : hasKey k es = true := by
  simp [hasKey, h]

theorem lookupKey_mergeConfigs {k : String} {dest : RawSection} {v : String}
    (src : RawSection) (h : lookupKey k dest = some v) :
    lookupKey k (mergeConfigs src dest) = some v := by
  induction src generalizing dest with
  | nil => exact h
  | cons kv rest ih =>
    obtain ⟨k0, v0⟩ := kv
    rw [mergeConfigs]
    split
    · exact ih h
    · exact ih (lookupKey_append_some h)

theorem lookupKey_removeOption {k k' : String} (hne : k' ≠ k) (es : RawSection) :
    lookupKey k (removeOption k' es) = lookupKey k es := by
  induction es with
  | nil => rfl
  | cons kv rest ih =>
    obtain ⟨k0, v0⟩ := kv
    rw [removeOption, List.filter_cons]
    by_cases hk0 : k0 = k'
    · subst hk0
      simp only [bne_self_eq_false, Bool.false_eq_true, if_false]
      rw [lookupKey_cons, if_neg hne]
      exact ih
    · simp only [bne_iff_ne, ne_eq, hk0, not_false_eq_true, if_true]
      rw [lookupKey_cons, lookupKey_cons]
      split
      · rfl
      · exact ih

theorem expandPassAux_preserves {raw : RawStore} {k : String} {v : String}
    (hk : k ∉ expendableFields) :
    ∀ (l : List (String × String)) (sec : RawSection) (m : Bool) (sec' : RawSection) (m' : Bool),
      lookupKey k sec = some v → expandPassAux raw l sec m = .ok (sec', m') →
      lookupKey k sec' = some v := by
  intro l
  induction l with
  | nil =>
    intro sec m sec' m' hsec hpass
    rw [expandPassAux] at hpass
    cases hpass
    exact hsec
  | cons kv rest ih =>
    intro sec m sec' m' hsec hpass
    obtain ⟨k0, v0⟩ := kv
    rw [expandPassAux] at hpass
    split at hpass
    · rename_i hk0
      cases htgt : lookupKey (refTargetName k0 v0) raw with
      | none => rw [htgt] at hpass; cases hpass
      | some target =>
        rw [htgt] at hpass
        have hne : k0 ≠ k := fun h => hk (h ▸ hk0)
        refine ih _ _ _ _ ?_ hpass
        exact lookupKey_mergeConfigs target ((lookupKey_removeOption hne sec).trans hsec)
    · exact ih _ _ _ _ hsec hpass

theorem expandSection_preserves {raw : RawStore} {k : String} {v : String}
    (hk : k ∉ expendableFields) :
    ∀ (fuel : Nat) (sec res : RawSection),
      lookupKey k sec = some v → expandSection raw fuel sec = .ok res →
      lookupKey k res = some v := by
  intro fuel
  induction fuel with
  | zero => intro sec res _ h; cases h
  | succ n ih =>
    intro sec res hsec hexp
    rw [expandSection] at hexp
    cases hpass : expandPassAux raw sec sec false with
    | error e => rw [hpass] at hexp; cases hexp
    | ok pr =>
      obtain ⟨sec', m'⟩ := pr
      rw [hpass] at hexp
      have hsec' := expandPassAux_preserves hk sec sec false sec' m' hsec hpass
      cases m' with
      | false => cases hexp; exact hsec'
      | true => exact ih sec' res hsec' hexp

theorem expandConfig_preserves {raw : RawStore} {fuel : Nat} {name : String}
    {data res : RawSection} {k : String} {v : String}
    (hname : lookupKey name raw = some data) (hk : k ∉ expendableFields)
    (hdata : lookupKey k data = some v) (hexp : expandConfig raw fuel name = .ok res) :
    lookupKey k res = some v := by
  rw [expandConfig, hname] at hexp
  replace hexp : (match expandSection raw fuel data with
      | Except.error e => Except.error e
      | Except.ok s1 =>
        match lookupKey (namespaceOf name ++ ":DEFAULT") raw with
        | none => Except.ok s1
        | some d => expandSection raw fuel (mergeConfigs d s1)) = Except.ok res := hexp
  cases h1 : expandSection raw fuel data with
  | error e => rw [h1] at hexp; cases hexp
  | ok s1 =>
    rw [h1] at hexp
    have hs1 := expandSection_preserves hk fuel data s1 hdata h1
    replace hexp : (match lookupKey (namespaceOf name ++ ":DEFAULT") raw with
        | none => Except.ok s1
        | some d => expandSection raw fuel (mergeConfigs d s1)) = Except.ok res := hexp
    cases hdef : lookupKey (namespaceOf name ++ ":DEFAULT") raw with
    | none => rw [hdef] at hexp; cases hexp; exact hs1
    | some d =>
      rw [hdef] at hexp
      exact expandSection_preserves hk fuel _ res (lookupKey_mergeConfigs d hs1) hexp

theorem expandPassAux_merged_true {raw : RawStore} :
    ∀ (l : List (String × String)) (sec sec' : RawSection) (m' : Bool),
      expandPassAux raw l sec true = .ok (sec', m') → m' = true := by
  intro l
  induction l with
  | nil => intro sec sec' m' h; rw [expandPassAux] at h; cases h; rfl
  | cons kv rest ih =>
    intro sec sec' m' h
    obtain ⟨k0, v0⟩ := kv
    rw [expandPassAux] at h
    split at h
    · cases htgt : lookupKey (refTargetName k0 v0) raw with
      | none => rw [htgt] at h; cases h
      | some target => rw [htgt] at h; exact ih _ _ _ h
    · exact ih _ _ _ h

theorem expandPassAux_ok_false {raw : RawStore} :
    ∀ (l : List (String × String)) (sec sec' : RawSection),
      expandPassAux raw l sec false = .ok (sec', false) →
      sec' = sec ∧ ∀ p ∈ l, p.1 ∉ expendableFields := by
  intro l
  induction l with
  | nil =>
    intro sec sec' h
    rw [expandPassAux] at h
    cases h
    exact ⟨rfl, fun p hp => absurd hp (List.not_mem_nil p)⟩
  | cons kv rest ih =>
    intro sec sec' h
    obtain ⟨k0, v0⟩ := kv
    rw [expandPassAux] at h
    split at h
    · rename_i hk0
      cases htgt : lookupKey (refTargetName k0 v0) raw with
      | none => rw [htgt] at h; cases h
      | some target =>
        rw [htgt] at h
        exact absurd (expandPassAux_merged_true _ _ _ _ h) (by simp)
    · rename_i hk0
      obtain ⟨hsec, hrest⟩ := ih _ _ h
      refine ⟨hsec, fun p hp => ?_⟩
      rcases List.mem_cons.mp hp with rfl | hp'
      · exact hk0
      · exact hrest p hp'

theorem expandSection_no_refs {raw : RawStore} :
    ∀ (fuel : Nat) (sec res : RawSection),
      expandSection raw fuel sec = .ok res →
      ∀ k ∈ expendableFields, lookupKey k res = none := by
  intro fuel
  induction fuel with
  | zero => intro sec res h; cases h
  | succ n ih =>
    intro sec res hexp
    rw [expandSection] at hexp
    cases hpass : expandPassAux raw sec sec false with
    | error e => rw [hpass] at hexp; cases hexp
    | ok pr =>
      obtain ⟨sec', m'⟩ := pr
      rw [hpass] at hexp
      cases m' with
      | false =>
        cases hexp
        obtain ⟨hsec, hnoref⟩ := expandPassAux_ok_false _ _ _ hpass
        intro k hk
        subst hsec
        exact lookupKey_eq_none_of_forall (fun p hp h => hnoref p hp (h ▸ hk))
      | true => exact ih sec' res hexp

theorem expandConfig_no_refs {raw : RawStore} {fuel : Nat} {name : String} {res : RawSection}
    (hexp : expandConfig raw fuel name = .ok res) :
    ∀ k ∈ expendableFields, lookupKey k res = none := by
  rw [expandConfig] at hexp
  cases hname : lookupKey name raw with
  | none => rw [hname] at hexp; cases hexp
  | some data =>
    rw [hname] at hexp
    replace hexp : (match expandSection raw fuel data with
        | Except.error e => Except.error e
        | Except.ok s1 =>
          match lookupKey (namespaceOf name ++ ":DEFAULT") raw with
          | none => Except.ok s1
          | some d => expandSection raw fuel (mergeConfigs d s1)) = Except.ok res := hexp
    cases h1 : expandSection raw fuel data with
    | error e => rw [h1] at hexp; cases hexp
    | ok s1 =>
      rw [h1] at hexp
      replace hexp : (match lookupKey (namespaceOf name ++ ":DEFAULT") raw with
          | none => Except.ok s1
          | some d => expandSection raw fuel (mergeConfigs d s1)) = Except.ok res := hexp
      cases hdef : lookupKey (namespaceOf name ++ ":DEFAULT") raw with
      | none => rw [hdef] at hexp; cases hexp; exact expandSection_no_refs fuel data res h1
      | some d => rw [hdef] at hexp; exact expandSection_no_refs fuel _ res hexp

/-! ### Dispatch and populate lemmas -/

theorem mem_updateAssoc {α : Type} {p : String × α} {es : List (String × α)} {k : String}
    {v : α} (h : p ∈ updateAssoc es k v) : p ∈ es ∨ p = (k, v) := by
  unfold updateAssoc at h
  split at h
  · obtain ⟨q, hq, hfq⟩ := List.mem_map.mp h
    by_cases hqk : q.1 = k
    · rw [if_pos hqk] at hfq
      exact Or.inr hfq.symm
    · rw [if_neg hqk] at hfq
      exact Or.inl (hfq ▸ hq)
  · rcases List.mem_append.mp h with h' | h'
    · exact Or.inl h'
    · exact Or.inr (List.mem_singleton.mp h')

theorem hasKey_updateAssoc_self {α : Type} (es : List (String × α)) (k : String) (v : α) :
    hasKey k (updateAssoc es k v) = true := by
  simp [hasKey, lookupKey_updateAssoc_self]

theorem hasKey_updateAssoc_mono {α : Type} {k : String} {es : List (String × α)}
    (h : hasKey k es = true) (k' : String) (v : α) :
    hasKey k (updateAssoc es k' v) = true := by
  by_cases hk : k' = k
  · subst hk; exact hasKey_updateAssoc_self es k' v
  · simpa [hasKey, lookupKey_updateAssoc_other hk] using h

theorem hasKey_updateAssoc_imp {α : Type} {k k0 : String} {es : List (String × α)} {v : α}
    (h : hasKey k (updateAssoc es k0 v) = true) : hasKey k es = true ∨ k = k0 := by
  by_cases hk : k0 = k
  · exact Or.inr hk.symm
  · rw [hasKey, lookupKey_updateAssoc_other hk] at h
    exact Or.inl h

theorem expendable_ne_name {k : String} (h : k ∈ expendableFields) : "_name" ≠ k := by
  fin_cases h <;> decide

theorem dispatchAux_expanded {raw : RawStore} {fuel : Nat} :
    ∀ (l : List (String × RawSection)) (acc d : Dispatched),
      dispatchAux raw fuel l acc = .ok d →
      (∀ p ∈ acc.presets, expandConfig raw fuel p.1 = .ok p.2) →
      (∀ p ∈ acc.users, expandConfig raw fuel p.1 = .ok p.2) →
      (∀ p ∈ acc.sites, expandConfig raw fuel p.1 = .ok p.2) →
      (∀ p ∈ acc.auths, expandConfig raw fuel p.1 = .ok p.2) →
      (∀ p ∈ d.presets, expandConfig raw fuel p.1 = .ok p.2) ∧
      (∀ p ∈ d.users, expandConfig raw fuel p.1 = .ok p.2) ∧
      (∀ p ∈ d.sites, expandConfig raw fuel p.1 = .ok p.2) ∧
      (∀ p ∈ d.auths, expandConfig raw fuel p.1 = .ok p.2) := by
  intro l
  induction l with
  | nil =>
    intro acc d hd h1 h2 h3 h4
    rw [dispatchAux] at hd
    cases hd
    exact ⟨h1, h2, h3, h4⟩
  | cons nd rest ih =>
    intro acc d hd h1 h2 h3 h4
    obtain ⟨name, data⟩ := nd
    rw [dispatchAux] at hd
    have hupd : ∀ (es : List (String × RawSection)) (ex : RawSection),
        (∀ p ∈ es, expandConfig raw fuel p.1 = .ok p.2) →
        expandConfig raw fuel name = .ok ex →
        ∀ p ∈ updateAssoc es name ex, expandConfig raw fuel p.1 = .ok p.2 := by
      intro es ex hes hex p hp
      rcases mem_updateAssoc hp with h' | h'
      · exact hes p h'
      · rw [h']; exact hex
    split at hd
    · cases hexp : expandConfig raw fuel name with
      | error e => rw [hexp] at hd; cases hd
      | ok ex =>
        rw [hexp] at hd
        exact ih _ d hd (hupd _ _ h1 hexp) h2 h3 h4
    · split at hd
      · cases hexp : expandConfig raw fuel name with
        | error e => rw [hexp] at hd; cases hd
        | ok ex =>
          rw [hexp] at hd
          exact ih _ d hd h1 (hupd _ _ h2 hexp) h3 h4
      · split at hd
        · cases hexp : expandConfig raw fuel name with
          | error e => rw [hexp] at hd; cases hd
          | ok ex =>
            rw [hexp] at hd
            exact ih _ d hd h1 h2 (hupd _ _ h3 hexp) h4
        · split at hd
          · cases hexp : expandConfig raw fuel name with
            | error e => rw [hexp] at hd; cases hd
            | ok ex =>
              rw [hexp] at hd
              exact ih _ d hd h1 h2 h3 (hupd _ _ h4 hexp)
          · split at hd
            · exact ih _ d hd h1 h2 h3 h4
            · exact ih _ d hd h1 h2 h3 h4

theorem populateSectionAux_keys {meta : KeysMetadata} :
    ∀ (l : List (String × String)) (acc s : SectionConfig),
      populateSectionAux meta l acc = .ok s →
      ∀ k, hasKey k s.entries = true → hasKey k acc.entries = true ∨ hasKey k l = true := by
  intro l
  induction l with
  | nil =>
    intro acc s hs k hk
    rw [populateSectionAux] at hs
    cases hs
    exact Or.inl hk
  | cons kv rest ih =>
    intro acc s hs k hk
    obtain ⟨k0, v0⟩ := kv
    rw [populateSectionAux] at hs
    cases hpv : getParsedParameterValue meta k0 v0 with
    | error e => rw [hpv] at hs; cases hs
    | ok pv =>
      rw [hpv] at hs
      rcases ih _ s hs k hk with h' | h'
      · rcases hasKey_updateAssoc_imp h' with h'' | h''
        · exact Or.inl h''
        · subst h''
          exact Or.inr (by simp [hasKey, lookupKey_cons])
      · exact Or.inr (by simp [hasKey, lookupKey_cons] at h' ⊢; split <;> simp [h'])

theorem populateAux_no_refs {meta : KeysMetadata} :
    ∀ (store : List (String × RawSection)) (acc g : GlobalConfig),
      populateAux meta store acc = .ok g →
      (∀ p ∈ acc, ∀ k ∈ expendableFields, hasKey k p.2.entries = false) →
      (∀ q ∈ store, ∀ k ∈ expendableFields, hasKey k q.2 = false) →
      ∀ p ∈ g, ∀ k ∈ expendableFields, hasKey k p.2.entries = false := by
  intro store
  induction store with
  | nil =>
    intro acc g hg hacc _
    rw [populateAux] at hg
    cases hg
    exact hacc
  | cons nd rest ih =>
    intro acc g hg hacc hstore
    obtain ⟨name, data⟩ := nd
    rw [populateAux] at hg
    cases hsec : populateSectionAux meta data ⟨[("_name", .pstr (localNameOf name))]⟩ with
    | error e => rw [hsec] at hg; cases hg
    | ok s =>
      rw [hsec] at hg
      refine ih _ g hg ?_ (fun q hq => hstore q (List.mem_cons_of_mem _ hq))
      intro p hp k hk
      rcases mem_updateAssoc hp with h' | h'
      · exact hacc p h' k hk
      · subst h'
        by_contra hcon
        rw [Bool.not_eq_false] at hcon
        rcases populateSectionAux_keys data _ s hsec k hcon with h'' | h''
        · have : lookupKey k [("_name", PValue.pstr (localNameOf name))] = none := by
            rw [lookupKey_cons, if_neg (expendable_ne_name hk), lookupKey_nil]
          simp [hasKey, this] at h''
        · have := hstore (name, data) (List.mem_cons_self _ _) k hk
          rw [h''] at this
          cases this

theorem populateAux_hasKey {meta : KeysMetadata} {L : String} :
    ∀ (store : List (String × RawSection)) (acc g : GlobalConfig),
      populateAux meta store acc = .ok g →
      (hasKey L acc = true ∨ ∃ q ∈ store, localNameOf q.1 = L) →
      hasKey L g = true := by
  intro store
  induction store with
  | nil =>
    intro acc g hg h
    rw [populateAux] at hg
    cases hg
    rcases h with h | ⟨q, hq, _⟩
    · exact h
    · cases hq
  | cons nd rest ih =>
    intro acc g hg h
    obtain ⟨name, data⟩ := nd
    rw [populateAux] at hg
    cases hsec : populateSectionAux meta data ⟨[("_name", .pstr (localNameOf name))]⟩ with
    | error e => rw [hsec] at hg; cases hg
    | ok s =>
      rw [hsec] at hg
      rcases h with h | ⟨q, hq, hql⟩
      · exact ih _ g hg (Or.inl (hasKey_updateAssoc_mono h _ _))
      · rcases List.mem_cons.mp hq with rfl | hq'
        · exact ih _ g hg (Or.inl (hql ▸ hasKey_updateAssoc_self acc (localNameOf name) s))
        · exact ih _ g hg (Or.inr ⟨q, hq', hql⟩)

theorem dispatchAux_hasKey_mono {raw : RawStore} {fuel : Nat} {n : String} :
    ∀ (l : List (String × RawSection)) (acc d : Dispatched),
      dispatchAux raw fuel l acc = .ok d →
      (hasKey n acc.presets = true → hasKey n d.presets = true) ∧
      (hasKey n acc.users = true → hasKey n d.users = true) ∧
      (hasKey n acc.sites = true → hasKey n d.sites = true) ∧
      (hasKey n acc.auths = true → hasKey n d.auths = true) := by
  intro l
  induction l with
  | nil =>
    intro acc d hd
    rw [dispatchAux] at hd
    cases hd
    exact ⟨id, id, id, id⟩
  | cons nd rest ih =>
    intro acc d hd
    obtain ⟨name, data⟩ := nd
    rw [dispatchAux] at hd
    split at hd
    · cases hexp : expandConfig raw fuel name with
      | error e => rw [hexp] at hd; cases hd
      | ok ex =>
        rw [hexp] at hd
        have h := ih _ d hd
        exact ⟨fun hk => h.1 (hasKey_updateAssoc_mono hk _ _), h.2.1, h.2.2.1, h.2.2.2⟩
    · split at hd
      · cases hexp : expandConfig raw fuel name with
        | error e => rw [hexp] at hd; cases hd
        | ok ex =>
          rw [hexp] at hd
          have h := ih _ d hd
          exact ⟨h.1, fun hk => h.2.1 (hasKey_updateAssoc_mono hk _ _), h.2.2.1, h.2.2.2⟩
      · split at hd
        · cases hexp : expandConfig raw fuel name with
          | error e => rw [hexp] at hd; cases hd
          | ok ex =>
            rw [hexp] at hd
            have h := ih _ d hd
            exact ⟨h.1, h.2.1, fun hk => h.2.2.1 (hasKey_updateAssoc_mono hk _ _), h.2.2.2⟩
        · split at hd
          · cases hexp : expandConfig raw fuel name with
            | error e => rw [hexp] at hd; cases hd
            | ok ex =>
              rw [hexp] at hd
              have h := ih _ d hd
              exact ⟨h.1, h.2.1, h.2.2.1, fun hk => h.2.2.2 (hasKey_updateAssoc_mono hk _ _)⟩
          · split at hd
            · have h := ih _ d hd
              exact h
            · exact ih _ d hd

theorem dispatchAux_mem_store {raw : RawStore} {fuel : Nat} :
    ∀ (l : List (String × RawSection)) (acc d : Dispatched) (name : String)
      (data : RawSection),
      dispatchAux raw fuel l acc = .ok d → (name, data) ∈ l →
      (pyStartsWith name "preset:" = true → hasKey name d.presets = true) ∧
      (pyStartsWith name "preset:" = false → pyStartsWith name "user:" = true →
        hasKey name d.users = true) ∧
      (pyStartsWith name "preset:" = false → pyStartsWith name "user:" = false →
        pyStartsWith name "site:" = true → hasKey name d.sites = true) ∧
      (pyStartsWith name "preset:" = false → pyStartsWith name "user:" = false →
        pyStartsWith name "site:" = false → pyStartsWith name "auth:" = true →
        hasKey name d.auths = true) := by
  intro l
  induction l with
  | nil => intro acc d name data hd hmem; cases hmem
  | cons nd rest ih =>
    intro acc d name data hd hmem
    obtain ⟨hn, hdata⟩ := nd
    rw [dispatchAux] at hd
    rcases List.mem_cons.mp hmem with heq | hmem'
    · injection heq with e1 e2
      subst e1
      split at hd
      · rename_i hc1
        cases hexp : expandConfig raw fuel name with
        | error e => rw [hexp] at hd; cases hd
        | ok ex =>
          rw [hexp] at hd
          refine ⟨fun _ => ?_, fun hp1 _ => ?_, fun hp1 _ _ => ?_, fun hp1 _ _ _ => ?_⟩
          · exact (dispatchAux_hasKey_mono rest _ d hd).1 (hasKey_updateAssoc_self _ _ _)
          · rw [hp1] at hc1; cases hc1
          · rw [hp1] at hc1; cases hc1
          · rw [hp1] at hc1; cases hc1
      · rename_i hc1
        split at hd
        · rename_i hc2
          cases hexp : expandConfig raw fuel name with
          | error e => rw [hexp] at hd; cases hd
          | ok ex =>
            rw [hexp] at hd
            refine ⟨fun hp => absurd hp hc1, fun _ _ => ?_, fun _ hp2 _ => ?_,
              fun _ hp2 _ _ => ?_⟩
            · exact (dispatchAux_hasKey_mono rest _ d hd).2.1 (hasKey_updateAssoc_self _ _ _)
            · rw [hp2] at hc2; cases hc2
            · rw [hp2] at hc2; cases hc2
        · rename_i hc2
          split at hd
          · rename_i hc3
            cases hexp : expandConfig raw fuel name with
            | error e => rw [hexp] at hd; cases hd
            | ok ex =>
              rw [hexp] at hd
              refine ⟨fun hp => absurd hp hc1, fun _ hp => absurd hp hc2,
                fun _ _ _ => ?_, fun _ _ hp3 _ => ?_⟩
              · exact (dispatchAux_hasKey_mono rest _ d hd).2.2.1
                  (hasKey_updateAssoc_self _ _ _)
              · rw [hp3] at hc3; cases hc3
          · rename_i hc3
            split at hd
            · rename_i hc4
              cases hexp : expandConfig raw fuel name with
              | error e => rw [hexp] at hd; cases hd
              | ok ex =>
                rw [hexp] at hd
                refine ⟨fun hp => absurd hp hc1, fun _ hp => absurd hp hc2,
                  fun _ _ hp => absurd hp hc3, fun _ _ _ _ => ?_⟩
                exact (dispatchAux_hasKey_mono rest _ d hd).2.2.2
                  (hasKey_updateAssoc_self _ _ _)
            · rename_i hc4
              split at hd
              · exact ⟨fun hp => absurd hp hc1, fun _ hp => absurd hp hc2,
                  fun _ _ hp => absurd hp hc3, fun _ _ _ hp => absurd hp hc4⟩
              · exact ⟨fun hp => absurd hp hc1, fun _ hp => absurd hp hc2,
                  fun _ _ hp => absurd hp hc3, fun _ _ _ hp => absurd hp hc4⟩
    · split at hd
      · cases hexp : expandConfig raw fuel hn with
        | error e => rw [hexp] at hd; cases hd
        | ok ex => rw [hexp] at hd; exact ih _ d name data hd hmem'
      · split at hd
        · cases hexp : expandConfig raw fuel hn with
          | error e => rw [hexp] at hd; cases hd
          | ok ex => rw [hexp] at hd; exact ih _ d name data hd hmem'
        · split at hd
          · cases hexp : expandConfig raw fuel hn with
            | error e => rw [hexp] at hd; cases hd
            | ok ex => rw [hexp] at hd; exact ih _ d name data hd hmem'
          · split at hd
            · cases hexp : expandConfig raw fuel hn with
              | error e => rw [hexp] at hd; cases hd
              | ok ex => rw [hexp] at hd; exact ih _ d name data hd hmem'
            · split at hd
              · have h := ih _ d name data hd hmem'
                exact h
              · exact ih _ d name data hd hmem'

/-! ### Sanitization lemmas -/

theorem lookupKey_filter_ne {α : Type} (k k' : String) (es : List (String × α)) :
    lookupKey k (es.filter (fun kv => kv.1 != k')) =
      if k' = k then none else lookupKey k es := by
  induction es with
  | nil => split <;> rfl
  | cons kv rest ih =>
    obtain ⟨k0, v0⟩ := kv
    rw [List.filter_cons]
    by_cases hk0 : k0 = k'
    · subst hk0
      simp only [bne_self_eq_false, Bool.false_eq_true, if_false]
      rw [ih, lookupKey_cons]
      split
      · rfl
      · rfl
    · simp only [bne_iff_ne, ne_eq, hk0, not_false_eq_true, if_true]
      rw [lookupKey_cons, lookupKey_cons, ih]
      by_cases hkk : k' = k
      · subst hkk
        rw [if_pos rfl, if_neg hk0, if_pos rfl]
      · rw [if_neg hkk, if_neg hkk]

theorem lookupKey_delete (s : SectionConfig) (k k' : String) :
    lookupKey k (SectionConfig.delete s k').entries =
      if k' = k then none else lookupKey k s.entries :=
  lookupKey_filter_ne k k' s.entries

theorem lookupKey_foldl_delete (k : String) :
    ∀ (hid : List String) (s : SectionConfig),
      lookupKey k ((hid.foldl SectionConfig.delete s)).entries =
        if k ∈ hid then none else lookupKey k s.entries := by
  intro hid
  induction hid with
  | nil => intro s; simp
  | cons h rest ih =>
    intro s
    rw [List.foldl_cons, ih, lookupKey_delete]
    by_cases hmem : k ∈ rest
    · rw [if_pos hmem, if_pos (List.mem_cons_of_mem h hmem)]
    · rw [if_neg hmem]
      by_cases hhk : h = k
      · subst hhk
        rw [if_pos rfl, if_pos (List.mem_cons_self h rest)]
      · have hnotin : ¬k ∈ h :: rest := by
          intro hcon
          rcases List.mem_cons.mp hcon with e | e
          · exact hhk e.symm
          · exact hmem e
        rw [if_neg hhk, if_neg hnotin]

/-! ### Object-merge lemmas -/

theorem get_append_self (s : SectionConfig) (k : String) (v : PValue) :
    SectionConfig.get (SectionConfig.append s k v) k = v := by
  simp [SectionConfig.get, SectionConfig.append, lookupKey_updateAssoc_self]

theorem get_append_other {k k' : String} (hne : k' ≠ k) (s : SectionConfig) (v : PValue) :
    SectionConfig.get (SectionConfig.append s k' v) k = SectionConfig.get s k := by
  simp [SectionConfig.get, SectionConfig.append, lookupKey_updateAssoc_other hne]

theorem mergeFold_get_other {u : SectionConfig} {k : String} :
    ∀ (l : List (String × PValue)) (acc : SectionConfig),
      (k = "_name" ∨ lookupKey k l = none) →
      SectionConfig.get
        (l.foldl (fun acc kv => if kv.1 = "_name" then acc
          else SectionConfig.append acc kv.1 (SectionConfig.get u kv.1)) acc) k =
      SectionConfig.get acc k := by
  intro l
  induction l with
  | nil => intro acc _; rfl
  | cons kv rest ih =>
    intro acc hk
    obtain ⟨k0, v0⟩ := kv
    have hrest : k = "_name" ∨ lookupKey k rest = none := by
      rcases hk with hk | hk
      · exact Or.inl hk
      · rw [lookupKey_cons] at hk
        split at hk
        · cases hk
        · exact Or.inr hk
    rw [List.foldl_cons, ih _ hrest]
    by_cases h0 : k0 = "_name"
    · rw [if_pos h0]
    · rw [if_neg h0]
      have hne : k0 ≠ k := by
        rcases hk with hk | hk
        · exact fun h => h0 (h.trans hk)
        · rw [lookupKey_cons] at hk
          intro h
          rw [if_pos h] at hk
          cases hk
      exact get_append_other hne acc _

theorem mergeFold_get_mem {u : SectionConfig} {k : String} (hkn : k ≠ "_name") :
    ∀ (l : List (String × PValue)) (acc : SectionConfig),
      hasKey k l = true →
      SectionConfig.get
        (l.foldl (fun acc kv => if kv.1 = "_name" then acc
          else SectionConfig.append acc kv.1 (SectionConfig.get u kv.1)) acc) k =
      SectionConfig.get u k := by
  intro l
  induction l with
  | nil => intro acc h; simp [hasKey, lookupKey] at h
  | cons kv rest ih =>
    intro acc h
    obtain ⟨k0, v0⟩ := kv
    rw [List.foldl_cons]
    by_cases hrest : hasKey k rest = true
    · exact ih _ hrest
    · have h0 : k0 = k := by
        by_contra h0
        rw [hasKey, lookupKey_cons, if_neg h0] at h
        exact hrest h
      subst h0
      have hnone : lookupKey k0 rest = none := by
        cases hl : lookupKey k0 rest with
        | none => rfl
        | some w => exact absurd (by simp [hasKey, hl]) hrest
      rw [if_neg hkn, mergeFold_get_other rest _ (Or.inr hnone), get_append_self]

/-! ### Value-containment search lemmas -/

theorem pvalEq_pnone (x : PValue) : pvalEq x PValue.pnone = decide (x = PValue.pnone) := by
  cases x <;> rfl

theorem searchSectionByValue_pnone :
    ∀ (g : GlobalConfig) (k : String),
      searchSectionByValue g k .pnone =
        (g.find? (fun p => decide (SectionConfig.get p.2 k = PValue.pnone))).map
          (fun p => p.2) := by
  intro g k
  induction g with
  | nil => rfl
  | cons ns rest ih =>
    obtain ⟨n, s⟩ := ns
    rw [searchSectionByValue, List.find?_cons]
    cases h : SectionConfig.get s k with
    | parr l =>
      rw [decide_eq_false (by simp : ¬(PValue.parr l = PValue.pnone))]
      simpa using ih
    | pnone =>
      rw [decide_eq_true (rfl : PValue.pnone = PValue.pnone)]
      simp [pvalEq]
    | pstr a =>
      rw [decide_eq_false (by simp : ¬(PValue.pstr a = PValue.pnone))]
      simpa [pvalEq] using ih
    | pint a =>
      rw [decide_eq_false (by simp : ¬(PValue.pint a = PValue.pnone))]
      simpa [pvalEq] using ih
    | pfloat a =>
      rw [decide_eq_false (by simp : ¬(PValue.pfloat a = PValue.pnone))]
      simpa [pvalEq] using ih
    | pbool a =>
      rw [decide_eq_false (by simp : ¬(PValue.pbool a = PValue.pnone))]
      simpa [pvalEq] using ih
    | pobj a =>
      rw [decide_eq_false (by simp : ¬(PValue.pobj a = PValue.pnone))]
      simpa [pvalEq] using ih

theorem lookupKey_some_mem {α : Type} {k : String} {es : List (String × α)} {v : α}
    (h : lookupKey k es = some v) : (k, v) ∈ es := by
  induction es with
  | nil => cases h
  | cons kv rest ih =>
    obtain ⟨k', v'⟩ := kv
    rw [lookupKey_cons] at h
    split at h
    · rename_i he
      cases h
      exact he ▸ List.mem_cons_self _ _
    · exact List.mem_cons_of_mem _ (ih h)

/-! ### Concrete stores used by counterexamples and witnesses -/

/-- A raw store with a direct reference cycle: `preset:a` references itself. -/
def rawCyclic : RawStore := [("preset:a", [("_preset", "a")])]

/-- A raw store where `preset:a` explicitly sets `x` and references
`preset:b`, which sets a conflicting `x` and a fresh `y`. -/
def rawFWW : RawStore :=
  [("preset:a", [("_preset", "b"), ("x", "1")]), ("preset:b", [("x", "0"), ("y", "2")])]

/-- A raw store with a `preset:DEFAULT` pseudo-section next to `preset:a`. -/
def rawDS : RawStore := [("preset:DEFAULT", [("x", "1")]), ("preset:a", [])]

theorem expandSection_cyclic (n : Nat) :
    expandSection rawCyclic n [("_preset", "a")] = .error .outOfFuel := by
  induction n with
  | zero => rfl
  | succ m ih =>
    have hp : expandPassAux rawCyclic [("_preset", "a")] [("_preset", "a")] false =
        .ok ([("_preset", "a")], true) := by decide
    rw [expandSection, hp]
    exact ih

/-! ### The claims -/

/-- C1: the expansion engine has no cycle detection.  On the raw store whose
`preset:a` section references itself through `_preset = a`, every pass of
`__expand_section` removes the reference key, merges it straight back in
from the raw target, and recurses: for every fuel bound the embedded
recursion is still running (`outOfFuel`).  The source therefore recurses
until the Python stack overflows; no `CyclicReferenceError` is raised — the
class does not even exist in the code, contradicting the claim. -/
theorem c1_cycle_unbounded_recursion (fuel : Nat) :
    expandConfig rawCyclic fuel "preset:a" = .error .outOfFuel := by
  show (match expandSection rawCyclic fuel [("_preset", "a")] with
    | Except.error e => Except.error e
    | Except.ok s1 =>
      match lookupKey (namespaceOf "preset:a" ++ ":DEFAULT") rawCyclic with
      | none => Except.ok s1
      | some d => expandSection rawCyclic fuel (mergeConfigs d s1)) =
    Except.error CfgError.outOfFuel
  rw [expandSection_cyclic fuel]

/-- C2 counterexample: the raw section `preset:a` explicitly sets the key
`_preset` (to `"b"`), yet the expanded result does not map `_preset` to that
value — reference keys are removed by the expansion, so the claim as stated
(for every explicitly set key) is false. -/
theorem c2_reference_key_not_preserved :
    lookupKey "preset:a" rawFWW = some [("_preset", "b"), ("x", "1")] ∧
    lookupKey "_preset" [("_preset", "b"), ("x", "1")] = some "b" ∧
    expandConfig rawFWW 5 "preset:a" = .ok [("x", "1"), ("y", "2")] ∧
    lookupKey "_preset" [("x", "1"), ("y", "2")] = none := by decide

/-- C2 (amended): first-writer-wins for every key that is not one of the six
reference keys.  Part one: a single merge step (`__merge_configs`, used both
for reference targets and for the namespace DEFAULT merge) never overwrites
an existing binding — hence the section's explicit value, and among
reference targets the earlier-merged one, always wins.  Part two: across a
whole terminating expansion, a non-reference key explicitly set by the raw
section keeps its explicit value in the result. -/
theorem c2_first_writer_wins :
    (∀ (src dest : RawSection) (k v : String),
        lookupKey k dest = some v → lookupKey k (mergeConfigs src dest) = some v) ∧
    (∀ (raw : RawStore) (fuel : Nat) (name : String) (data res : RawSection) (k v : String),
        lookupKey name raw = some data → k ∉ expendableFields →
        lookupKey k data = some v → expandConfig raw fuel name = .ok res →
        lookupKey k res = some v) := by
  constructor
  · intro src dest k v h
    exact lookupKey_mergeConfigs src h
  · intro raw fuel name data res k v hname hk hdata hexp
    exact expandConfig_preserves hname hk hdata hexp

theorem c2_first_writer_wins_witness :
    lookupKey "x" [("x", "1"), ("y", "2")] = some "1" :=
  c2_first_writer_wins.2 rawFWW 5 "preset:a" [("_preset", "b"), ("x", "1")]
    [("x", "1"), ("y", "2")] "x" "1" (by decide) (by decide) (by decide) (by decide)

/-- C3 counterexample: `preset:DEFAULT` starts with the `preset:` prefix, so
`__dispatch_configs` does run it through `__expand_config`, and
`__populate_config_object` then registers a typed section named `DEFAULT` in
the presets container — refuting the claim that the DEFAULT pseudo-section
is never expanded through the entrypoint and never appears typed. -/
theorem c3_default_section_is_expanded :
    dispatchConfigs rawDS 5 =
      .ok ⟨[("preset:DEFAULT", [("x", "1")]), ("preset:a", [("x", "1")])], [], [], [], []⟩ ∧
    populateConfigObject emptyMeta
        [("preset:DEFAULT", [("x", "1")]), ("preset:a", [("x", "1")])] =
      .ok [("DEFAULT", ⟨[("_name", .pstr "DEFAULT"), ("x", .pstr "1")]⟩),
           ("A", ⟨[("_name", .pstr "A"), ("x", .pstr "1")]⟩)] ∧
    hasKey "DEFAULT"
      [("DEFAULT", (⟨[("_name", PValue.pstr "DEFAULT"), ("x", PValue.pstr "1")]⟩ : SectionConfig)),
       ("A", ⟨[("_name", PValue.pstr "A"), ("x", PValue.pstr "1")]⟩)] = true := by decide

/-- C3 (amended): for every namespace (preset, user, site, auth) that has a
`<namespace>:DEFAULT` pseudo-section in the raw store, that section matches
its namespace prefix and is therefore itself dispatched through the
expansion entrypoint like any other section of the namespace: whenever
dispatching succeeds, the namespace's store binds `<namespace>:DEFAULT` to a
result of `__expand_config` on that very section name, and populating the
typed container from the store yields a typed section named `DEFAULT`. -/
theorem c3_default_dispatched :
    ∀ (raw : RawStore) (fuel : Nat) (d : Dispatched) (meta : KeysMetadata),
      dispatchConfigs raw fuel = .ok d →
      ((∀ d0, ("preset:DEFAULT", d0) ∈ raw →
          (∃ e, lookupKey "preset:DEFAULT" d.presets = some e ∧
            expandConfig raw fuel "preset:DEFAULT" = .ok e) ∧
          (∀ g, populateConfigObject meta d.presets = .ok g →
            hasKey "DEFAULT" g = true)) ∧
       (∀ d0, ("user:DEFAULT", d0) ∈ raw →
          (∃ e, lookupKey "user:DEFAULT" d.users = some e ∧
            expandConfig raw fuel "user:DEFAULT" = .ok e) ∧
          (∀ g, populateConfigObject meta d.users = .ok g →
            hasKey "DEFAULT" g = true)) ∧
       (∀ d0, ("site:DEFAULT", d0) ∈ raw →
          (∃ e, lookupKey "site:DEFAULT" d.sites = some e ∧
            expandConfig raw fuel "site:DEFAULT" = .ok e) ∧
          (∀ g, populateConfigObject meta d.sites = .ok g →
            hasKey "DEFAULT" g = true)) ∧
       (∀ d0, ("auth:DEFAULT", d0) ∈ raw →
          (∃ e, lookupKey "auth:DEFAULT" d.auths = some e ∧
            expandConfig raw fuel "auth:DEFAULT" = .ok e) ∧
          (∀ g, populateConfigObject meta d.auths = .ok g →
            hasKey "DEFAULT" g = true))) := by
  intro raw fuel d meta hd
  have hnil : ∀ p ∈ ([] : List (String × RawSection)), expandConfig raw fuel p.1 = .ok p.2 :=
    fun p hp => absurd hp (List.not_mem_nil p)
  have hdisp := dispatchAux_expanded raw ⟨[], [], [], [], []⟩ d hd hnil hnil hnil hnil
  refine ⟨fun d0 hmem => ?_, fun d0 hmem => ?_, fun d0 hmem => ?_, fun d0 hmem => ?_⟩
  · have hk : hasKey "preset:DEFAULT" d.presets = true :=
      (dispatchAux_mem_store raw ⟨[], [], [], [], []⟩ d "preset:DEFAULT" d0 hd hmem).1
        (by decide)
    cases he : lookupKey "preset:DEFAULT" d.presets with
    | none => rw [hasKey, he] at hk; cases hk
    | some e =>
      refine ⟨⟨e, rfl, hdisp.1 ("preset:DEFAULT", e) (lookupKey_some_mem he)⟩,
        fun g hpop => ?_⟩
      exact populateAux_hasKey d.presets [] g hpop
        (Or.inr ⟨("preset:DEFAULT", e), lookupKey_some_mem he,
          (by decide : localNameOf "preset:DEFAULT" = "DEFAULT")⟩)
  · have hk : hasKey "user:DEFAULT" d.users = true :=
      (dispatchAux_mem_store raw ⟨[], [], [], [], []⟩ d "user:DEFAULT" d0 hd hmem).2.1
        (by decide) (by decide)
    cases he : lookupKey "user:DEFAULT" d.users with
    | none => rw [hasKey, he] at hk; cases hk
    | some e =>
      refine ⟨⟨e, rfl, hdisp.2.1 ("user:DEFAULT", e) (lookupKey_some_mem he)⟩,
        fun g hpop => ?_⟩
      exact populateAux_hasKey d.users [] g hpop
        (Or.inr ⟨("user:DEFAULT", e), lookupKey_some_mem he,
          (by decide : localNameOf "user:DEFAULT" = "DEFAULT")⟩)
  · have hk : hasKey "site:DEFAULT" d.sites = true :=
      (dispatchAux_mem_store raw ⟨[], [], [], [], []⟩ d "site:DEFAULT" d0 hd hmem).2.2.1
        (by decide) (by decide) (by decide)
    cases he : lookupKey "site:DEFAULT" d.sites with
    | none => rw [hasKey, he] at hk; cases hk
    | some e =>
      refine ⟨⟨e, rfl, hdisp.2.2.1 ("site:DEFAULT", e) (lookupKey_some_mem he)⟩,
        fun g hpop => ?_⟩
      exact populateAux_hasKey d.sites [] g hpop
        (Or.inr ⟨("site:DEFAULT", e), lookupKey_some_mem he,
          (by decide : localNameOf "site:DEFAULT" = "DEFAULT")⟩)
  · have hk : hasKey "auth:DEFAULT" d.auths = true :=
      (dispatchAux_mem_store raw ⟨[], [], [], [], []⟩ d "auth:DEFAULT" d0 hd hmem).2.2.2
        (by decide) (by decide) (by decide) (by decide)
    cases he : lookupKey "auth:DEFAULT" d.auths with
    | none => rw [hasKey, he] at hk; cases hk
    | some e =>
      refine ⟨⟨e, rfl, hdisp.2.2.2 ("auth:DEFAULT", e) (lookupKey_some_mem he)⟩,
        fun g hpop => ?_⟩
      exact populateAux_hasKey d.auths [] g hpop
        (Or.inr ⟨("auth:DEFAULT", e), lookupKey_some_mem he,
          (by decide : localNameOf "auth:DEFAULT" = "DEFAULT")⟩)

/-- A raw store with a `user:DEFAULT` pseudo-section next to `user:u1`. -/
def rawDSU : RawStore := [("user:DEFAULT", [("x", "1")]), ("user:u1", [])]

theorem c3_default_dispatched_witness :
    (∃ e, lookupKey "preset:DEFAULT"
        [("preset:DEFAULT", [("x", "1")]), ("preset:a", [("x", "1")])] = some e ∧
      expandConfig rawDS 5 "preset:DEFAULT" = .ok e) ∧
    hasKey "DEFAULT"
      [("DEFAULT", (⟨[("_name", PValue.pstr "DEFAULT"), ("x", PValue.pstr "1")]⟩ : SectionConfig)),
       ("A", ⟨[("_name", PValue.pstr "A"), ("x", PValue.pstr "1")]⟩)] = true ∧
    (∃ e, lookupKey "user:DEFAULT"
        [("user:DEFAULT", [("x", "1")]), ("user:u1", [("x", "1")])] = some e ∧
      expandConfig rawDSU 5 "user:DEFAULT" = .ok e) ∧
    hasKey "DEFAULT"
      [("DEFAULT", (⟨[("_name", PValue.pstr "DEFAULT"), ("x", PValue.pstr "1")]⟩ : SectionConfig)),
       ("U1", ⟨[("_name", PValue.pstr "U1"), ("x", PValue.pstr "1")]⟩)] = true := by
  have hp := c3_default_dispatched rawDS 5
    ⟨[("preset:DEFAULT", [("x", "1")]), ("preset:a", [("x", "1")])], [], [], [], []⟩
    emptyMeta (by decide)
  have hu := c3_default_dispatched rawDSU 5
    ⟨[], [("user:DEFAULT", [("x", "1")]), ("user:u1", [("x", "1")])], [], [], []⟩
    emptyMeta (by decide)
  obtain ⟨hpe, hpg⟩ := hp.1 [("x", "1")] (by decide)
  obtain ⟨hue, hug⟩ := hu.2.1 [("x", "1")] (by decide)
  refine ⟨hpe, hpg _ (by decide), hue, hug _ (by decide)⟩

/-- C4: `is_user_permitted_by_token` is three-way.  With the app section
present, if the `_enable_users_management` setting is falsy the result is the
distinguished `notApplicable` (Python `None`, distinct from both other
constructors); if it is truthy and no user section matches the token the
result is `denied` (Python `False`); if a user matches, the result carries
that user's typed section. -/
theorem c4_three_way_permission :
    ∀ (c : ConfigObjects) (app : SectionConfig) (token : PValue),
      getAppParams c = some app →
      ((truthy (SectionConfig.get app "_enable_users_management") = false →
          isUserPermittedByToken c token = some .notApplicable) ∧
       (truthy (SectionConfig.get app "_enable_users_management") = true →
          getUserParamByToken c token = none →
          isUserPermittedByToken c token = some .denied) ∧
       (∀ u, truthy (SectionConfig.get app "_enable_users_management") = true →
          getUserParamByToken c token = some u →
          isUserPermittedByToken c token = some (.permitted u))) := by
  intro c app token happ
  refine ⟨fun h1 => ?_, fun h1 h2 => ?_, fun u h1 h2 => ?_⟩
  · simp [isUserPermittedByToken, happ, h1]
  · simp [isUserPermittedByToken, happ, h1, h2]
  · simp [isUserPermittedByToken, happ, h1, h2]

/-- The typed objects of a manager whose app section disables user
management. -/
def objsDisabled : ConfigObjects :=
  ⟨[("APP", ⟨[("_enable_users_management", .pbool false)]⟩)], []⟩

theorem c4_three_way_permission_witness :
    isUserPermittedByToken objsDisabled (.pstr "token") = some .notApplicable :=
  (c4_three_way_permission objsDisabled ⟨[("_enable_users_management", .pbool false)]⟩
    (.pstr "token") (by decide)).1 (by decide)

/-- C5: sanitization removes every hidden-classified key from the returned
section (for either value of the `mutate` flag) and from every section of a
sanitized namespace container, while every key not classified hidden keeps
its binding unchanged.  The input section itself is untouched: the source
deep-copies before deleting, which the value semantics of the embedding
renders as the argument being returned unmodified. -/
theorem c5_sanitize_removes_hidden :
    ∀ (meta : KeysMetadata) (s : SectionConfig) (g : GlobalConfig) (k : String),
      k ∈ meta.hiddenKeys →
      ((∀ b, hasKey k (sanitizeConfigObjectSection meta s b).entries = false) ∧
       (∀ p ∈ sanitizeConfigObject meta g, hasKey k p.2.entries = false) ∧
       (∀ k', k' ∉ meta.hiddenKeys → ∀ b,
          lookupKey k' (sanitizeConfigObjectSection meta s b).entries =
            lookupKey k' s.entries)) := by
  intro meta s g k hk
  have hsec : ∀ (t : SectionConfig) (b : Bool),
      hasKey k (sanitizeConfigObjectSection meta t b).entries = false := by
    intro t b
    simp [sanitizeConfigObjectSection, hasKey, lookupKey_foldl_delete, hk]
  refine ⟨fun b => hsec s b, fun p hp => ?_, fun k' hk' b => ?_⟩
  · obtain ⟨q, _, hfq⟩ := List.mem_map.mp hp
    rw [← hfq]
    exact hsec q.2 true
  · simp [sanitizeConfigObjectSection, lookupKey_foldl_delete, hk']

/-- Metadata classifying `_token` as hidden. -/
def metaHidden : KeysMetadata := ⟨[], [], [], [], [], ["_token"]⟩

theorem c5_sanitize_removes_hidden_witness :
    hasKey "_token" (sanitizeConfigObjectSection metaHidden
      ⟨[("_token", .pstr "secret"), ("x", .pstr "1")]⟩ false).entries = false ∧
    lookupKey "x" (sanitizeConfigObjectSection metaHidden
      ⟨[("_token", .pstr "secret"), ("x", .pstr "1")]⟩ false).entries = some (.pstr "1") := by
  have h := c5_sanitize_removes_hidden metaHidden
    ⟨[("_token", .pstr "secret"), ("x", .pstr "1")]⟩ [] "_token" (by decide)
  refine ⟨h.1 false, ?_⟩
  rw [h.2.2 "x" (by decide) false]
  decide

/-- C6: a terminating expansion removes every one of the six reference keys
from its result, and consequently no typed section populated from one of the
four expanded namespace stores (presets, users, sites, auths; the verbatim
`app` store does not pass through the expansion engine) binds a reference
key. -/
theorem c6_no_reference_keys_in_result :
    (∀ (raw : RawStore) (fuel : Nat) (name : String) (res : RawSection),
        expandConfig raw fuel name = .ok res →
        ∀ k ∈ expendableFields, lookupKey k res = none) ∧
    (∀ (raw : RawStore) (fuel : Nat) (d : Dispatched) (meta : KeysMetadata)
       (store : List (String × RawSection)) (g : GlobalConfig),
        dispatchConfigs raw fuel = .ok d →
        (store = d.presets ∨ store = d.users ∨ store = d.sites ∨ store = d.auths) →
        populateConfigObject meta store = .ok g →
        ∀ p ∈ g, ∀ k ∈ expendableFields, hasKey k p.2.entries = false) := by
  constructor
  · intro raw fuel name res hexp
    exact expandConfig_no_refs hexp
  · intro raw fuel d meta store g hd hstore hpop
    have hnil : ∀ p ∈ ([] : List (String × RawSection)), expandConfig raw fuel p.1 = .ok p.2 :=
      fun p hp => absurd hp (List.not_mem_nil p)
    have hdisp := dispatchAux_expanded raw ⟨[], [], [], [], []⟩ d hd hnil hnil hnil hnil
    have hentries : ∀ q ∈ store, expandConfig raw fuel q.1 = .ok q.2 := by
      rcases hstore with rfl | rfl | rfl | rfl
      · exact hdisp.1
      · exact hdisp.2.1
      · exact hdisp.2.2.1
      · exact hdisp.2.2.2
    refine populateAux_no_refs store [] g hpop
      (fun p hp => absurd hp (List.not_mem_nil p)) (fun q hq k hk => ?_)
    simp [hasKey, expandConfig_no_refs (hentries q hq) k hk]

theorem c6_no_reference_keys_in_result_witness :
    lookupKey "_preset" [("x", "1"), ("y", "2")] = none :=
  c6_no_reference_keys_in_result.1 rawFWW 5 "preset:a" [("x", "1"), ("y", "2")]
    (by decide) "_preset" (by decide)

/-- C7: `merge_configs_object` has override semantics.  Every key of the
user section other than `_name` ends up in the result bound to the user's
value, overwriting any equal-named binding of the preset; every other key —
`_name` included, whatever the user section says — keeps the preset's value;
and merging an absent user section returns the preset object unchanged (the
source mutates and returns `preset_object` itself, which value passing
renders as returning the updated section). -/
theorem c7_merge_override :
    ∀ (u p : SectionConfig),
      ((∀ (k : String) (v : PValue), k ≠ "_name" → lookupKey k u.entries = some v →
          SectionConfig.get (mergeConfigsObject (some u) p) k = v) ∧
       (∀ k : String, k = "_name" ∨ lookupKey k u.entries = none →
          SectionConfig.get (mergeConfigsObject (some u) p) k = SectionConfig.get p k) ∧
       mergeConfigsObject none p = p) := by
  intro u p
  refine ⟨fun k v hk hlk => ?_, fun k hk => ?_, rfl⟩
  · have hget : SectionConfig.get u k = v := by
      simp [SectionConfig.get, hlk]
    exact (mergeFold_get_mem hk u.entries p (hasKey_of_lookupKey_some hlk)).trans hget
  · exact mergeFold_get_other u.entries p hk

theorem c7_merge_override_witness :
    SectionConfig.get (mergeConfigsObject (some ⟨[("_name", .pstr "u"), ("x", .pint 1)]⟩)
      ⟨[("_name", .pstr "p"), ("x", .pint 0), ("y", .pint 2)]⟩) "x" = .pint 1 ∧
    SectionConfig.get (mergeConfigsObject (some ⟨[("_name", .pstr "u"), ("x", .pint 1)]⟩)
      ⟨[("_name", .pstr "p"), ("x", .pint 0), ("y", .pint 2)]⟩) "_name" = .pstr "p" ∧
    SectionConfig.get (mergeConfigsObject (some ⟨[("_name", .pstr "u"), ("x", .pint 1)]⟩)
      ⟨[("_name", .pstr "p"), ("x", .pint 0), ("y", .pint 2)]⟩) "y" = .pint 2 := by
  have h := c7_merge_override ⟨[("_name", .pstr "u"), ("x", .pint 1)]⟩
    ⟨[("_name", .pstr "p"), ("x", .pint 0), ("y", .pint 2)]⟩
  refine ⟨h.1 "x" (.pint 1) (by decide) (by decide), ?_, ?_⟩
  · rw [h.2.1 "_name" (Or.inl rfl)]
    decide
  · rw [h.2.1 "y" (Or.inr (by decide))]
    decide

/-- C8: value-containment search treats a missing key as the value `None`.
Part one: searching any container for `None` returns exactly the first
section whose `get` yields `pnone` (the `parr` branch never matches `None`).
Part two: `get` yields `pnone` precisely because a key absent from the
instance dictionary with no static default falls through to `None`.  Part
three, the consequence on tokens: a `None` token passed to
`get_user_param_by_token` matches a leading user section that has no
`_token` key at all, instead of reporting absence. -/
theorem c8_search_none_matches_missing :
    (∀ (g : GlobalConfig) (k : String),
        searchSectionByValue g k .pnone =
          (g.find? (fun p => decide (SectionConfig.get p.2 k = PValue.pnone))).map
            (fun p => p.2)) ∧
    (∀ (s : SectionConfig) (k : String),
        lookupKey k sectionDefaults = none → lookupKey k s.entries = none →
        SectionConfig.get s k = .pnone) ∧
    (∀ (appStore : GlobalConfig) (nm : String) (s : SectionConfig) (rest : GlobalConfig),
        lookupKey "_token" s.entries = none →
        getUserParamByToken ⟨appStore, (nm, s) :: rest⟩ .pnone = some s) := by
  refine ⟨searchSectionByValue_pnone, fun s k hd hl => ?_, fun appStore nm s rest htok => ?_⟩
  · simp [SectionConfig.get, hl, hd]
  · have hget : SectionConfig.get s "_token" = .pnone := by
      have hd : lookupKey "_token" sectionDefaults = none := by decide
      simp [SectionConfig.get, htok, hd]
    show searchSectionByValue ((nm, s) :: rest) "_token" .pnone = some s
    rw [searchSectionByValue_pnone, List.find?_cons, decide_eq_true hget]
    rfl

theorem c8_search_none_matches_missing_witness :
    getUserParamByToken ⟨[], [("U", ⟨[("x", .pstr "1")]⟩)]⟩ .pnone =
      some ⟨[("x", .pstr "1")]⟩ :=
  c8_search_none_matches_missing.2.2 [] "U" ⟨[("x", .pstr "1")]⟩ [] (by decide)

/-- C9: for a key classified (only) in the boolean bucket, coercion is the
strict literal comparison with lowercase `"true"`: the typed value is the
boolean `raw == "true"`, and it is `true` exactly when the raw text is
`"true"` — everything else, `"True"` and `"1"` included, coerces to `false`
and never to an error. -/
theorem c9_bool_strict :
    ∀ (meta : KeysMetadata) (k v : String),
      k ∈ meta.boolKeys → k ∉ meta.intKeys → k ∉ meta.floatKeys →
      (getParsedParameterValue meta k v = .ok (.pbool (v == "true")) ∧
       (getParsedParameterValue meta k v = .ok (.pbool true) ↔ v = "true")) := by
  intro meta k v hb hi hf
  have h1 : getParsedParameterValue meta k v = .ok (.pbool (v == "true")) := by
    simp only [getParsedParameterValue]
    rw [if_neg hi, if_neg hf, if_pos hb]
  refine ⟨h1, ?_⟩
  rw [h1]
  simp

/-- Metadata classifying `flag` as boolean. -/
def metaBool : KeysMetadata := ⟨[], [], ["flag"], [], [], []⟩

theorem c9_bool_strict_witness :
    getParsedParameterValue metaBool "flag" "True" = .ok (.pbool false) ∧
    getParsedParameterValue metaBool "flag" "true" = .ok (.pbool true) := by
  have hT := c9_bool_strict metaBool "flag" "True" (by decide) (by decide) (by decide)
  have ht := c9_bool_strict metaBool "flag" "true" (by decide) (by decide) (by decide)
  refine ⟨?_, ht.2.mpr rfl⟩
  rw [hT.1]
  decide

/-- C10: for a key classified (only) in the array bucket, a non-empty raw
text coerces to the ordered list of its comma-separated substrings, while
the empty raw text coerces to Python `None` — not to an empty list. -/
theorem c10_array_coercion :
    ∀ (meta : KeysMetadata) (k v : String),
      k ∈ meta.arrayKeys → k ∉ meta.intKeys → k ∉ meta.floatKeys → k ∉ meta.boolKeys →
      ((v ≠ "" → getParsedParameterValue meta k v = .ok (.parr (pySplit ',' v))) ∧
       getParsedParameterValue meta k "" = .ok .pnone) := by
  intro meta k v ha hi hf hb
  constructor
  · intro hv
    simp [getParsedParameterValue, hi, hf, hb, ha, hv]
  · simp [getParsedParameterValue, hi, hf, hb, ha]

/-- Metadata classifying `list` as array. -/
def metaArray : KeysMetadata := ⟨[], [], [], ["list"], [], []⟩

theorem c10_array_coercion_witness :
    getParsedParameterValue metaArray "list" "a,b,c" = .ok (.parr ["a", "b", "c"]) ∧
    getParsedParameterValue metaArray "list" "" = .ok .pnone := by
  have h := c10_array_coercion metaArray "list" "a,b,c"
    (by decide) (by decide) (by decide) (by decide)
  refine ⟨?_, h.2⟩
  rw [h.1 (by decide)]
  decide
